import Mathlib

/-!
# Verification of the Y-Net model core (`src/lib/models/ynet.py`)

This file shallowly embeds the Y-Net trajectory-prediction architecture:

* a *shape-level* semantics of the convolutional encoder (`YNetEncoder`),
  the skip-connection decoder (`YNetDecoder`) and the top-level model
  (`YNetTorch.__init__`), where a tensor is represented by its per-sample
  shape (channels × height × width) and every layer is a partial function
  on shapes that fails exactly where PyTorch raises a shape/size error;
* a *value-level* semantics (exact rational arithmetic) of the numeric
  post-processing operations `YNetTorch.softmax` (spatial softmax) and
  `YNetTorch.softargmax_on_softmax_map` (soft-argmax on a normalized map),
  over a tensor model carrying an explicit dimension list together with a
  multi-index valuation.

The helper `create_meshgrid` is imported by the source from
`lib/models/softargmax.py`, which is not part of the sources; it is
modelled from the specification (see its doc-string below).
-/

set_option autoImplicit false

/-- Per-sample tensor shape: channels, height, width (the batch dimension is
uniform across the whole forward pass and plays no role in any shape check,
so it is not tracked). -/
structure Shape where
  c : ℕ
  h : ℕ
  w : ℕ
deriving DecidableEq

/-- Errors raised by the embedded forward/construction code.
`indexError` models a Python `IndexError` (indexing an empty list at
construction time), `outputTooSmall` models PyTorch "Output size is too
small" errors of pooling/convolution, `channelMismatch` models a channel
count mismatch in a convolution, and `concatMismatch i` models the shape
error of `torch.cat` at the `i`-th skip concatenation of the decoder loop. -/
inductive NetError where
  | indexError
  | outputTooSmall
  | channelMismatch
  | concatMismatch (i : ℕ)
deriving DecidableEq

/-- The layer kinds appearing in `ynet.py`: 3×3 stride-1 padding-1
convolutions (spatial-size preserving) and the 1×1 stride-1 predictor
convolution (also spatial-size preserving) are both `conv cin cout` at the
shape level; `relu` is `nn.ReLU` and `maxpool2` is
`nn.MaxPool2d(kernel_size=2, stride=2, padding=0, ceil_mode=False)`. -/
inductive Layer where
  | conv (cin cout : ℕ)
  | relu
  | maxpool2
deriving DecidableEq

/-- Shape semantics of a single layer.
A convolution requires the input channel count to match and (as in PyTorch)
a non-empty spatial output; `maxpool2` floors both spatial dims by 2 and
requires its input to be at least 2×2 (PyTorch raises otherwise). -/
def applyLayer : Layer → Shape → Except NetError Shape
  | .conv cin cout, s =>
      if s.c = cin then
        if 1 ≤ s.h ∧ 1 ≤ s.w then .ok ⟨cout, s.h, s.w⟩
        else .error .outputTooSmall
      else .error .channelMismatch
  | .relu, s => .ok s
  | .maxpool2, s =>
      if 2 ≤ s.h ∧ 2 ≤ s.w then .ok ⟨s.c, s.h / 2, s.w / 2⟩
      else .error .outputTooSmall

/-- Shape semantics of an `nn.Sequential` block (a list of layers). -/
def applyStage : List Layer → Shape → Except NetError Shape
  | [], s => .ok s
  | l :: rest, s =>
    match applyLayer l s with
    | .error e => .error e
    | .ok s' => applyStage rest s'

/-- The middle stages of `YNetEncoder.__init__`: for each adjacent pair
`(channels[i], channels[i+1])` one block
`MaxPool2d(2,2) ∘ Conv(ch_i→ch_{i+1}) ∘ ReLU ∘ Conv(ch_{i+1}→ch_{i+1}) ∘ ReLU`
(this is the `for i in range(len(channels) - 1)` loop, expressed by
recursion on adjacent pairs of the channel list). -/
def midStages : List ℕ → List (List Layer)
  | c1 :: c2 :: rest =>
      [Layer.maxpool2, Layer.conv c1 c2, Layer.relu, Layer.conv c2 c2, Layer.relu]
        :: midStages (c2 :: rest)
  | _ => []

/-- The encoder: its recorded input channel count and its stage list. -/
structure Encoder where
  inChannels : ℕ
  stages : List (List Layer)
deriving DecidableEq

/-- Model of `YNetEncoder.__init__(in_channels, channels)`: first block
`Conv(in_channels→channels[0]) ∘ ReLU`, then the middle stages, then a lone
final `MaxPool2d(2,2)`.  Indexing `channels[0]` on an empty channel list is
a Python `IndexError`. -/
def YNetEncoder_init (in_channels : ℕ) (channels : List ℕ) : Except NetError Encoder :=
  match channels with
  | [] => .error .indexError
  | c0 :: rest =>
      .ok { inChannels := in_channels
          , stages := [Layer.conv in_channels c0, Layer.relu]
                :: (midStages (c0 :: rest) ++ [[Layer.maxpool2]]) }

/-- Model of `YNetEncoder.forward`: run the stages in order, collecting every stage
output into the returned feature pyramid (finest first). -/
def YNetEncoder_forward : List (List Layer) → Shape → Except NetError (List Shape)
  | [], _ => .ok []
  | st :: rest, s =>
    match applyStage st s with
    | .error e => .error e
    | .ok s' =>
      match YNetEncoder_forward rest s' with
      | .error e => .error e
      | .ok fs => .ok (s' :: fs)

/-- The decoder: the center (bottleneck) block, the per-stage upsampling
convolutions, the per-stage fusion blocks and the 1×1 predictor. -/
structure Decoder where
  center : List Layer
  upsample_conv : List (List Layer)
  decoder : List (List Layer)
  predictor : List Layer
deriving DecidableEq

/-- Model of `YNetDecoder.__init__(encoder_channels, decoder_channels, output_len, traj)`.
When `traj` is a nonzero waypoint count (Python truthiness of `if traj:`),
every encoder channel count is increased by `traj`.  The encoder channel
list is reversed, the center block doubles the bottleneck channels, the
upsampling convolutions halve `[center*2] + decoder_channels[:-1]`, the
fusion blocks take concatenated `enc + dec` channels, and the predictor is a
1×1 convolution from `decoder_channels[-1]` (a Python `IndexError` on an
empty decoder channel list, as is `encoder_channels[0]` on an empty encoder
channel list). -/
def YNetDecoder_init (encoder_channels decoder_channels : List ℕ)
    (output_len : ℕ) (traj : ℕ) : Except NetError Decoder :=
  let ec := (if traj ≠ 0 then encoder_channels.map (· + traj) else encoder_channels).reverse
  match ec with
  | [] => .error .indexError
  | center_channels :: _ =>
    match decoder_channels.getLast? with
    | none => .error .indexError
    | some dlast =>
      let upsample_channels_in := center_channels * 2 :: decoder_channels.dropLast
      let upsample_channels_out := upsample_channels_in.map (· / 2)
      let in_channels := (ec.zip upsample_channels_out).map (fun p => p.1 + p.2)
      let out_channels := decoder_channels
      .ok { center := [Layer.conv center_channels (center_channels * 2), Layer.relu,
                       Layer.conv (center_channels * 2) (center_channels * 2), Layer.relu]
          , upsample_conv := (upsample_channels_in.zip upsample_channels_out).map
                (fun p => [Layer.conv p.1 p.2])
          , decoder := (in_channels.zip out_channels).map
                (fun p => [Layer.conv p.1 p.2, Layer.relu, Layer.conv p.2 p.2, Layer.relu])
          , predictor := [Layer.conv dlast output_len] }

/-- Model of `F.interpolate(x, scale_factor=2, mode="bilinear")` at the shape level:
both spatial dimensions double. -/
def interpolate2 (s : Shape) : Shape := ⟨s.c, 2 * s.h, 2 * s.w⟩

/-- The decoder loop body of `YNetDecoder.forward`: for each
`(feature, module, upsample_conv)` triple (in coarse-to-fine order),
upsample, apply the upsampling convolution, concatenate with the skip
feature (`torch.cat` along the channel dimension requires equal spatial
sizes; its failure is tagged with the 0-based index of the concatenation),
then apply the fusion block.  Returns the final tensor shape together with
the list of skip features consumed, in consumption order. -/
def decoderLoop : List (Shape × List Layer × List Layer) → ℕ → Shape →
    Except NetError (Shape × List Shape)
  | [], _, x => .ok (x, [])
  | (feature, block, upconv) :: rest, i, x =>
    match applyStage upconv (interpolate2 x) with
    | .error e => .error e
    | .ok x1 =>
      if x1.h = feature.h ∧ x1.w = feature.w then
        match applyStage block ⟨x1.c + feature.c, x1.h, x1.w⟩ with
        | .error e => .error e
        | .ok x2 =>
          match decoderLoop rest (i + 1) x2 with
          | .error e => .error e
          | .ok (y, consumed) => .ok (y, feature :: consumed)
      else .error (.concatMismatch i)

/-- Model of `YNetDecoder.forward(features)`: reverse the pyramid, run the center
block on the coarsest entry, run the decoder loop on
`zip(features[1:], self.decoder, self.upsample_conv)` (Python `zip`
truncates to the shortest list), then the 1×1 predictor. -/
def YNetDecoder_forward (D : Decoder) (features : List Shape) :
    Except NetError (Shape × List Shape) :=
  match features.reverse with
  | [] => .error .indexError
  | center_feature :: rest =>
    match applyStage D.center center_feature with
    | .error e => .error e
    | .ok x =>
      match decoderLoop (rest.zip (D.decoder.zip D.upsample_conv)) 0 x with
      | .error e => .error e
      | .ok (y, consumed) =>
        match applyStage D.predictor y with
        | .error e => .error e
        | .ok out => .ok (out, consumed)

/-- The semantic-segmentation backbone slot of `YNetTorch`: a model loaded
from `segmentation_model_fp` (optionally with its segmentation head replaced
by `nn.Identity()` in features-only mode), or `nn.Identity()` when no
filepath is configured. -/
inductive Backbone where
  | loadedSeg
  | loadedFeaturesOnly
  | identity
deriving DecidableEq

/-- The top-level model: backbone slot, encoder, and the two decoders. -/
structure YNetTorch where
  semantic_segmentation : Backbone
  encoder : Encoder
  goal_decoder : Decoder
  traj_decoder : Decoder
deriving DecidableEq

/-- Model of `YNetTorch.__init__`.  The loaded-file content is irrelevant to the
model structure, so the filepath is modelled as `Option Unit`.  When a
backbone is configured and `use_features_only` is set, the segmentation
head is replaced and `semantic_classes` is overwritten with the constant 16;
the encoder input width is `semantic_classes + obs_len`; the goal decoder is
built with `traj = 0` (Python `False`) and the trajectory decoder with
`traj = waypoints`. -/
def YNetTorch_init (obs_len pred_len : ℕ) (segmentation_model_fp : Option Unit)
    (use_features_only : Bool) (semantic_classes : ℕ)
    (encoder_channels decoder_channels : List ℕ) (waypoints : ℕ) :
    Except NetError YNetTorch :=
  let bc : Backbone × ℕ :=
    match segmentation_model_fp with
    | some _ =>
        if use_features_only then (Backbone.loadedFeaturesOnly, 16)
        else (Backbone.loadedSeg, semantic_classes)
    | none => (Backbone.identity, semantic_classes)
  match YNetEncoder_init (bc.2 + obs_len) encoder_channels with
  | .error e => .error e
  | .ok enc =>
    match YNetDecoder_init encoder_channels decoder_channels pred_len 0 with
    | .error e => .error e
    | .ok goal =>
      match YNetDecoder_init encoder_channels decoder_channels pred_len waypoints with
      | .error e => .error e
      | .ok traj => .ok ⟨bc.1, enc, goal, traj⟩

/-- Model of `YNetTorch.pred_features`: construct the encoder and run its forward
pass (shape level). -/
def encPyramid (inCh : ℕ) (encCh : List ℕ) (s : Shape) : Except NetError (List Shape) :=
  match YNetEncoder_init inCh encCh with
  | .error e => .error e
  | .ok E => YNetEncoder_forward E.stages s

/-- A full encoder-then-decoder forward pass (`pred_features` followed by
`pred_goal`/`pred_traj`), at the shape level. -/
def fullForward (inCh : ℕ) (encCh decCh : List ℕ) (outLen traj : ℕ) (s : Shape) :
    Except NetError (Shape × List Shape) :=
  match encPyramid inCh encCh s, YNetDecoder_init encCh decCh outLen traj with
  | .ok fs, .ok D => YNetDecoder_forward D fs
  | .error e, _ => .error e
  | .ok _, .error e => .error e

instance exceptDecEq {ε α : Type} [DecidableEq ε] [DecidableEq α] :
    DecidableEq (Except ε α)
  | .ok x, .ok y =>
    if h : x = y then .isTrue (by rw [h]) else .isFalse (by intro hc; cases hc; exact h rfl)
  | .ok _, .error _ => .isFalse (by intro hc; cases hc)
  | .error _, .ok _ => .isFalse (by intro hc; cases hc)
  | .error e, .error f =>
    if h : e = f then .isTrue (by rw [h]) else .isFalse (by intro hc; cases hc; exact h rfl)

/-- Whether an embedded computation succeeded (no Python/PyTorch error). -/
def isOkE {α : Type} : Except NetError α → Bool
  | .ok _ => true
  | .error _ => false

/-- Run a decoder forward pass on the result of a decoder construction. -/
def runDecoder (r : Except NetError Decoder) (fs : List Shape) :
    Except NetError (Shape × List Shape) :=
  match r with
  | .error e => .error e
  | .ok D => YNetDecoder_forward D fs

/-- The encoder input channel count of a constructed model, when
construction succeeded. -/
def initEncoderInChannels (r : Except NetError YNetTorch) : Option ℕ :=
  match r with
  | .error _ => none
  | .ok M => some M.encoder.inChannels

/-- The backbone slot of a constructed model, when construction succeeded. -/
def initBackbone (r : Except NetError YNetTorch) : Option Backbone :=
  match r with
  | .error _ => none
  | .ok M => some M.semantic_segmentation

/-- Closed form of the pyramid produced from the second encoder stage on:
one entry per middle stage (channel count changes, spatial dims halve), and
a final entry for the lone max-pool. -/
def encTail : ℕ → List ℕ → ℕ → ℕ → List Shape
  | c, [], h, w => [⟨c, h / 2, w / 2⟩]
  | _, c' :: cs, h, w => ⟨c', h / 2, w / 2⟩ :: encTail c' cs (h / 2) (w / 2)

/-- The skip entries of the reversed pyramid, in coarse-to-fine order: for a
reversed encoder channel list `es` and original input size `h × w`, the
entry headed by `e` (with `es'` remaining) has spatial size
`h / 2 ^ es'.length × w / 2 ^ es'.length`. -/
def revSkips : List ℕ → ℕ → ℕ → List Shape
  | [], _, _ => []
  | e :: es, h, w => ⟨e, h / 2 ^ es.length, w / 2 ^ es.length⟩ :: revSkips es h w

/-- Last element with a default (Python `list[-1]` of a nonempty list). -/
def lastD : List ℕ → ℕ → ℕ
  | [], c => c
  | d :: ds, _ => lastD ds d

/-- The decoder's upsampling convolutions, built recursively: the input
channel counts run through `cur :: decoder_channels.dropLast`, each halved
on output. -/
def upsFor : List ℕ → ℕ → List (List Layer)
  | [], _ => []
  | d :: ds, cur => [Layer.conv cur (cur / 2)] :: upsFor ds d

/-- The decoder's fusion blocks, built recursively: stage channels
`enc + up_out → dec`, where `up_out` halves the previous stage's output. -/
def blocksFor : List ℕ → List ℕ → ℕ → List (List Layer)
  | e :: es, d :: ds, cur =>
      [Layer.conv (e + cur / 2) d, Layer.relu, Layer.conv d d, Layer.relu]
        :: blocksFor es ds d
  | _, _, _ => []

/-! ## Value-level tensor model -/

/-- Product of a dimension list (row-major flattening size). -/
def prodList (l : List ℕ) : ℕ := l.foldr (· * ·) 1

/-- Row-major flat index of multi-index `ix` in a tensor of dimensions `ds`. -/
def flatIx : List ℕ → List ℕ → ℕ
  | _ :: ds, i :: ix => i * prodList ds + flatIx ds ix
  | _, _ => 0

/-- Row-major multi-index of flat position `k` in dimensions `ds`. -/
def unflatten : List ℕ → ℕ → List ℕ
  | [], _ => []
  | [_], k => [k]
  | _ :: ds, k => k / prodList ds :: unflatten ds (k % prodList ds)

/-- Sum of `f` over `0, …, n-1`. -/
def sumRange (n : ℕ) (f : ℕ → ℚ) : ℚ := ((List.range n).map f).sum

/-- A tensor: an explicit dimension list together with a rational valuation
of multi-indices (values at out-of-bounds indices are never relevant). -/
structure Tensor where
  dims : List ℕ
  val : List ℕ → ℚ

namespace Tensor

/-- Model of `torch.Tensor.view`: reinterpret the row-major flattened data in new
dimensions. -/
def view (t : Tensor) (nd : List ℕ) : Tensor :=
  ⟨nd, fun ix => t.val (unflatten t.dims (flatIx nd ix))⟩

/-- Model of `torch.Tensor.view_as x`: view in the dimensions of `x`. -/
def view_as (t x : Tensor) : Tensor := t.view x.dims

/-- Model of `torch.Tensor.flatten(2)`: flatten all dimensions from position 2 on. -/
def flatten2 (t : Tensor) : Tensor :=
  t.view (t.dims.take 2 ++ [prodList (t.dims.drop 2)])

/-- Model of `torch.Tensor.reshape(-1)`: flatten into a single dimension. -/
def reshape_all (t : Tensor) : Tensor := t.view [prodList t.dims]

/-- The last dimension of a tensor (`shape[-1]`). -/
def lastDim (t : Tensor) : ℕ := t.dims.getLastD 0

/-- Model of `torch.sum(dim=-1, keepdim=True)`. -/
def sum_last_keepdim (t : Tensor) : Tensor :=
  ⟨t.dims.dropLast ++ [1],
   fun ix => sumRange t.lastDim (fun k => t.val (ix.dropLast ++ [k]))⟩

/-- Model of `torch.cat([a, b], dim=-1)` for tensors agreeing on all leading
dimensions. -/
def cat_last (a b : Tensor) : Tensor :=
  ⟨a.dims.dropLast ++ [a.lastDim + b.lastDim],
   fun ix =>
     if ix.getLastD 0 < a.lastDim then a.val ix
     else b.val (ix.dropLast ++ [ix.getLastD 0 - a.lastDim])⟩

/-- Broadcast combination of two dimension sizes (`1` broadcasts, equal
sizes pass through; the incompatible case, on which PyTorch raises, is
never exercised in this file). -/
def bdim (a b : ℕ) : ℕ := if a = 1 then b else a

/-- Left-pad a dimension list with 1s up to length `k`. -/
def leftPad1 (k : ℕ) (l : List ℕ) : List ℕ := List.replicate (k - l.length) 1 ++ l

/-- Trailing-aligned broadcast of two dimension lists. -/
def broadcastDims (d1 d2 : List ℕ) : List ℕ :=
  List.zipWith bdim (leftPad1 (max d1.length d2.length) d1)
    (leftPad1 (max d1.length d2.length) d2)

/-- Restrict a broadcast multi-index to the trailing dimensions of `dims`,
collapsing broadcast (size-1) axes to index 0. -/
def broadcastIndex (dims ix : List ℕ) : List ℕ :=
  List.zipWith (fun d i => if d = 1 then 0 else i) dims
    (ix.drop (ix.length - dims.length))

/-- Elementwise `*` with PyTorch broadcasting. -/
def tmul (a b : Tensor) : Tensor :=
  ⟨broadcastDims a.dims b.dims,
   fun ix => a.val (broadcastIndex a.dims ix) * b.val (broadcastIndex b.dims ix)⟩

end Tensor

/-- Model of `nn.Softmax(2)` on a rank-3 tensor (the only way it is used in the
source), with the exponential map abstracted as a parameter `e`: the
normalization facts proved below hold for every strictly positive `e`, in
particular for the real exponential. -/
def softmaxDim2 (e : ℚ → ℚ) (t : Tensor) : Tensor :=
  ⟨t.dims, fun ix =>
    match ix with
    | [n, c, k] =>
        e (t.val [n, c, k]) / sumRange (t.dims.getD 2 0) (fun m => e (t.val [n, c, m]))
    | _ => 0⟩

/-- Model of `YNetTorch.softmax`, the spatial softmax:
`nn.Softmax(2)(x.view(*x.size()[:2], -1)).view_as(x)`. -/
def YNetTorch_softmax (e : ℚ → ℚ) (x : Tensor) : Tensor :=
  (softmaxDim2 e (x.view (x.dims.take 2 ++ [prodList (x.dims.drop 2)]))).view_as x

/-- Modelled from the spec: `create_meshgrid` is imported from
`lib/models/softargmax.py`, which is not among the available sources.  Per
spec §4.4 it constructs an H×W coordinate grid in which each cell holds its
own (x, y) index — raw pixel indices when `normalized_coordinates` is
false (the only mode used by `softargmax_on_softmax_map`), linearly
rescaled to [-1, 1] otherwise — returned as the pair `(pos_y, pos_x)` of
H×W grids, with H and W read from the spatial dimensions of `x`. -/
def create_meshgrid (x : Tensor) (normalized_coordinates : Bool) : Tensor × Tensor :=
  let H := x.dims.getD 2 0
  let W := x.dims.getD 3 0
  let coord : ℕ → ℕ → ℚ := fun n i =>
    if normalized_coordinates then 2 * (i : ℚ) / ((n : ℚ) - 1) - 1 else (i : ℚ)
  (⟨[H, W], fun ix => coord H (ix.getD 0 0)⟩,
   ⟨[H, W], fun ix => coord W (ix.getD 1 0)⟩)

/-- Model of `YNetTorch.softargmax_on_softmax_map`: soft-argmax of an
already-normalized spatial map: the expectations of the x and y pixel
coordinates under the map, concatenated as (x, y) along a final dimension
of size 2. -/
def softargmax_on_softmax_map (x : Tensor) : Tensor :=
  let pos := create_meshgrid x false
  let pos_y := pos.1.reshape_all
  let pos_x := pos.2.reshape_all
  let xf := x.flatten2
  let estimated_x := (pos_x.tmul xf).sum_last_keepdim
  let estimated_y := (pos_y.tmul xf).sum_last_keepdim
  estimated_x.cat_last estimated_y

/-- A one-hot 1×1×2×2 map concentrated at grid cell (row 0, column 1). -/
def x4test : Tensor := ⟨[1, 1, 2, 2], fun ix => if ix = [0, 0, 0, 1] then 1 else 0⟩

/-- A constant-zero 1×1×2×2 logit tensor. -/
def x5test : Tensor := ⟨[1, 1, 2, 2], fun _ => 0⟩

/-- The constant-one stand-in for the exponential map (strictly positive). -/
def e5test : ℚ → ℚ := fun _ => 1

/-- A normalized 2×1×3×3 map (single channel, batch 2). -/
def x10test : Tensor := ⟨[2, 1, 3, 3], fun _ => 1 / 9⟩


/-! ## Encoder lemmas -/

lemma midStages_length : ∀ l : List ℕ, (midStages l).length = l.length - 1
  | [] => rfl
  | [_] => rfl
  | _ :: c2 :: rest => by
      simp [midStages, midStages_length (c2 :: rest)]

lemma encForward_length : ∀ (stages : List (List Layer)) (s : Shape) (fs : List Shape),
    YNetEncoder_forward stages s = .ok fs → fs.length = stages.length
  | [], _, fs, h => by
      simp only [YNetEncoder_forward] at h
      cases h
      rfl
  | st :: rest, s, fs, h => by
      cases h1 : applyStage st s with
      | error e => simp [YNetEncoder_forward, h1] at h
      | ok s' =>
        cases h2 : YNetEncoder_forward rest s' with
        | error e => simp [YNetEncoder_forward, h1, h2] at h
        | ok fs' =>
          simp only [YNetEncoder_forward, h1, h2, Except.ok.injEq] at h
          subst h
          simp [encForward_length rest s' fs' h2]

lemma applyLayer_spatial {l : Layer} {s s' : Shape} (h : applyLayer l s = .ok s') :
    s'.h ≤ s.h ∧ s'.w ≤ s.w := by
  cases l with
  | conv cin cout =>
      simp only [applyLayer] at h
      split at h
      · split at h
        · cases h; exact ⟨le_refl _, le_refl _⟩
        · cases h
      · cases h
  | relu =>
      simp only [applyLayer] at h
      cases h
      exact ⟨le_refl _, le_refl _⟩
  | maxpool2 =>
      simp only [applyLayer] at h
      split at h
      · cases h; exact ⟨Nat.div_le_self _ _, Nat.div_le_self _ _⟩
      · cases h

lemma applyStage_spatial : ∀ {st : List Layer} {s s' : Shape},
    applyStage st s = .ok s' → s'.h ≤ s.h ∧ s'.w ≤ s.w := by
  intro st
  induction st with
  | nil =>
      intro s s' h
      simp only [applyStage] at h
      cases h
      exact ⟨le_refl _, le_refl _⟩
  | cons l rest ih =>
      intro s s' h
      cases h1 : applyLayer l s with
      | error e => simp [applyStage, h1] at h
      | ok s1 =>
        simp only [applyStage, h1] at h
        have ha := applyLayer_spatial h1
        have hb := ih h
        exact ⟨le_trans hb.1 ha.1, le_trans hb.2 ha.2⟩

lemma encForward_chain : ∀ (stages : List (List Layer)) (s : Shape) (fs : List Shape),
    YNetEncoder_forward stages s = .ok fs →
    List.Chain' (fun p q : Shape => q.h ≤ p.h ∧ q.w ≤ p.w) (s :: fs)
  | [], _, fs, h => by
      simp only [YNetEncoder_forward] at h
      cases h
      simp
  | st :: rest, s, fs, h => by
      cases h1 : applyStage st s with
      | error e => simp [YNetEncoder_forward, h1] at h
      | ok s' =>
        cases h2 : YNetEncoder_forward rest s' with
        | error e => simp [YNetEncoder_forward, h1, h2] at h
        | ok fs' =>
          simp only [YNetEncoder_forward, h1, h2, Except.ok.injEq] at h
          subst h
          exact List.Chain'.cons (applyStage_spatial h1) (encForward_chain rest s' fs' h2)

lemma encForward_mid : ∀ (cs : List ℕ) (c h w : ℕ),
    2 ^ (cs.length + 1) ≤ h → 2 ^ (cs.length + 1) ≤ w →
    YNetEncoder_forward (midStages (c :: cs) ++ [[Layer.maxpool2]]) ⟨c, h, w⟩
      = .ok (encTail c cs h w)
  | [], c, h, w, hh, hw => by
      have h2 : 2 ≤ h := by simpa using hh
      have w2 : 2 ≤ w := by simpa using hw
      simp [midStages, YNetEncoder_forward, applyStage, applyLayer, h2, w2, encTail]
  | c2 :: cs', c, h, w, hh, hw => by
      simp only [List.length_cons] at hh hw
      have h2 : 2 ≤ h :=
        le_trans (Nat.one_lt_two_pow_iff.mpr (by omega)) hh
      have w2 : 2 ≤ w :=
        le_trans (Nat.one_lt_two_pow_iff.mpr (by omega)) hw
      have hd2 : 2 ^ (cs'.length + 1) ≤ h / 2 :=
        (Nat.le_div_iff_mul_le (by norm_num)).mpr (by rw [← pow_succ]; exact hh)
      have wd2 : 2 ^ (cs'.length + 1) ≤ w / 2 :=
        (Nat.le_div_iff_mul_le (by norm_num)).mpr (by rw [← pow_succ]; exact hw)
      have h1 : 1 ≤ h / 2 := le_trans (Nat.one_le_two_pow) hd2
      have w1 : 1 ≤ w / 2 := le_trans (Nat.one_le_two_pow) wd2
      have hstage : applyStage
          [Layer.maxpool2, Layer.conv c c2, Layer.relu, Layer.conv c2 c2, Layer.relu]
          ⟨c, h, w⟩ = .ok ⟨c2, h / 2, w / 2⟩ := by
        simp [applyStage, applyLayer, h2, w2, h1, w1]
      rw [show midStages (c :: c2 :: cs')
            = [Layer.maxpool2, Layer.conv c c2, Layer.relu, Layer.conv c2 c2, Layer.relu]
              :: midStages (c2 :: cs') from rfl]
      rw [List.cons_append]
      simp only [YNetEncoder_forward, hstage]
      rw [encForward_mid cs' c2 (h / 2) (w / 2) hd2 wd2]
      simp [encTail]

/-- The encoder forward pass succeeds on inputs of the right channel count
whose spatial dimensions are at least `2 ^ len(channels)`, and produces
exactly the expected pyramid. -/
lemma encoder_forward_ok (cs : List ℕ) (c0 inCh h w : ℕ)
    (hh : 2 ^ (cs.length + 1) ≤ h) (hw : 2 ^ (cs.length + 1) ≤ w) :
    YNetEncoder_forward
        ([Layer.conv inCh c0, Layer.relu] :: (midStages (c0 :: cs) ++ [[Layer.maxpool2]]))
        ⟨inCh, h, w⟩
      = .ok (⟨c0, h, w⟩ :: encTail c0 cs h w) := by
  have h1 : 1 ≤ h := le_trans (Nat.one_le_two_pow) hh
  have w1 : 1 ≤ w := le_trans (Nat.one_le_two_pow) hw
  have hstage : applyStage [Layer.conv inCh c0, Layer.relu] ⟨inCh, h, w⟩
      = .ok ⟨c0, h, w⟩ := by
    simp [applyStage, applyLayer, h1, w1]
  simp only [YNetEncoder_forward, hstage]
  rw [encForward_mid cs c0 h w hh hw]

/-! ## Decoder lemmas -/

lemma lastD_eq_getLast : ∀ (ds : List ℕ) (dl c : ℕ), ds.getLast? = some dl → lastD ds c = dl
  | [], _, _, h => by cases h
  | [d], dl, c, h => by
      simp only [List.getLast?_singleton, Option.some.injEq] at h
      simp [lastD, h]
  | d :: d2 :: ds, dl, c, h => by
      rw [List.getLast?_cons_cons] at h
      exact lastD_eq_getLast (d2 :: ds) dl d h

lemma div2_pow (h k : ℕ) : h / 2 / 2 ^ k = h / 2 ^ (k + 1) := by
  rw [Nat.div_div_eq_div_mul, mul_comm, ← pow_succ]

lemma revSkips_append : ∀ (es : List ℕ) (e h w : ℕ),
    revSkips (es ++ [e]) h w = revSkips es (h / 2) (w / 2) ++ [⟨e, h, w⟩]
  | [], e, h, w => by simp [revSkips]
  | e' :: es', e, h, w => by
      simp [revSkips, revSkips_append es' e h w, div2_pow]

lemma pyramid_reverse : ∀ (cs : List ℕ) (c0 h w : ℕ),
    (⟨c0, h, w⟩ :: encTail c0 cs h w : List Shape).reverse
      = ⟨lastD cs c0, h / 2 ^ (cs.length + 1), w / 2 ^ (cs.length + 1)⟩
        :: revSkips ((c0 :: cs).reverse) h w
  | [], c0, h, w => by simp [encTail, revSkips, lastD]
  | c1 :: cs', c0, h, w => by
      have ih := pyramid_reverse cs' c1 (h / 2) (w / 2)
      rw [show encTail c0 (c1 :: cs') h w
            = ⟨c1, h / 2, w / 2⟩ :: encTail c1 cs' (h / 2) (w / 2) from rfl]
      rw [List.reverse_cons, ih]
      rw [show (c0 :: c1 :: cs').reverse = (c1 :: cs').reverse ++ [c0] from
        List.reverse_cons c0 (c1 :: cs')]
      rw [revSkips_append, lastD]
      simp [div2_pow, List.cons_append]

lemma zip_map_map {α β γ : Type} (f : α → β) (g : α × β → γ) :
    ∀ l : List α, (l.zip (l.map f)).map g = l.map (fun a => g (a, f a))
  | [] => rfl
  | a :: l => by simp [zip_map_map f g l]

lemma map_upsFor : ∀ (ds : List ℕ) (cur : ℕ), ds ≠ [] →
    (cur :: ds.dropLast).map (fun a => [Layer.conv a (a / 2)]) = upsFor ds cur
  | [], _, hne => absurd rfl hne
  | [d], cur, _ => by simp [upsFor]
  | d :: d2 :: r, cur, _ => by
      have ih := map_upsFor (d2 :: r) d (by simp)
      rw [show (d :: d2 :: r).dropLast = d :: (d2 :: r).dropLast from rfl]
      rw [List.map_cons, ih]
      rfl

lemma blocks_eq_blocksFor : ∀ (es ds : List ℕ) (cur : ℕ),
    (((es.zip ((cur :: ds.dropLast).map (· / 2))).map (fun p => p.1 + p.2)).zip ds).map
        (fun p => [Layer.conv p.1 p.2, Layer.relu, Layer.conv p.2 p.2, Layer.relu])
      = blocksFor es ds cur
  | [], ds, cur => by simp [blocksFor]
  | e :: es', [], cur => by simp [blocksFor]
  | e :: es', [d], cur => by simp [blocksFor, List.dropLast]
  | e :: es', d :: d2 :: r, cur => by
      have ih := blocks_eq_blocksFor es' (d2 :: r) d
      rw [show (d :: d2 :: r).dropLast = d :: (d2 :: r).dropLast from rfl]
      rw [show blocksFor (e :: es') (d :: d2 :: r) cur
            = [Layer.conv (e + cur / 2) d, Layer.relu, Layer.conv d d, Layer.relu]
              :: blocksFor es' (d2 :: r) d from rfl]
      rw [← ih]
      simp [List.zip_cons_cons]

lemma decoder_init_eq (encCh decCh : List ℕ) (o t : ℕ) (cc : ℕ) (ecRest : List ℕ)
    (hec : (if t ≠ 0 then encCh.map (· + t) else encCh).reverse = cc :: ecRest)
    (dl : ℕ) (hdl : decCh.getLast? = some dl) :
    YNetDecoder_init encCh decCh o t = .ok
      { center := [Layer.conv cc (cc * 2), Layer.relu,
                   Layer.conv (cc * 2) (cc * 2), Layer.relu]
      , upsample_conv := upsFor decCh (cc * 2)
      , decoder := blocksFor (cc :: ecRest) decCh (cc * 2)
      , predictor := [Layer.conv dl o] } := by
  have hdne : decCh ≠ [] := by
    intro hnil
    rw [hnil] at hdl
    cases hdl
  simp only [YNetDecoder_init]
  rw [hec, hdl]
  simp only [Except.ok.injEq, Decoder.mk.injEq]
  refine ⟨trivial, ?_, ?_, trivial⟩
  · rw [zip_map_map, map_upsFor decCh (cc * 2) hdne]
  · exact blocks_eq_blocksFor (cc :: ecRest) decCh (cc * 2)

lemma decoder_init_isOk (encCh decCh : List ℕ) (o t : ℕ)
    (hec : encCh ≠ []) (hdc : decCh ≠ []) :
    isOkE (YNetDecoder_init encCh decCh o t) = true := by
  have hadj : (if t ≠ 0 then encCh.map (· + t) else encCh) ≠ [] := by
    split
    · simpa using hec
    · exact hec
  have hrev : (if t ≠ 0 then encCh.map (· + t) else encCh).reverse ≠ [] := by
    simpa using hadj
  obtain ⟨cc, ecRest, hec'⟩ := List.exists_cons_of_ne_nil hrev
  obtain ⟨dl, hdl⟩ : ∃ dl, decCh.getLast? = some dl := by
    cases h : decCh.getLast? with
    | none => exact absurd (List.getLast?_eq_none_iff.mp h) hdc
    | some dl => exact ⟨dl, rfl⟩
  rw [decoder_init_eq encCh decCh o t cc ecRest hec' dl hdl]
  rfl

lemma double_div_of_dvd {h : ℕ} (k : ℕ) (hd : 2 ^ (k + 1) ∣ h) :
    2 * (h / 2 ^ (k + 1)) = h / 2 ^ k := by
  obtain ⟨m, rfl⟩ := hd
  rw [Nat.mul_div_cancel_left m (by positivity)]
  rw [pow_succ, mul_assoc, Nat.mul_div_cancel_left _ (by positivity)]

lemma dvd_step {x : ℕ} (k : ℕ) (hd : 2 ^ k ∣ x)
    (he : 2 * (x / 2 ^ (k + 1)) = x / 2 ^ k) : 2 ^ (k + 1) ∣ x := by
  obtain ⟨m, rfl⟩ := hd
  rw [Nat.mul_div_cancel_left _ (by positivity)] at he
  rw [pow_succ, Nat.mul_div_mul_left _ _ (by positivity)] at he
  obtain ⟨m', rfl⟩ : 2 ∣ m := ⟨m / 2, he.symm⟩
  exact ⟨m', by ring⟩

lemma decoderLoop_ok : ∀ (es ds : List ℕ) (cur h w i : ℕ),
    es.length = ds.length →
    2 ^ es.length ≤ h → 2 ^ es.length ≤ w →
    2 ^ es.length ∣ h → 2 ^ es.length ∣ w →
    decoderLoop ((revSkips es h w).zip ((blocksFor es ds cur).zip (upsFor ds cur))) i
        ⟨cur, h / 2 ^ es.length, w / 2 ^ es.length⟩
      = .ok (⟨lastD ds cur, h, w⟩, revSkips es h w)
  | [], [], cur, h, w, i, _, _, _, _, _ => by
      simp [revSkips, blocksFor, upsFor, decoderLoop, lastD]
  | [], d :: ds, _, _, _, _, hlen, _, _, _, _ => by simp at hlen
  | e :: es, [], _, _, _, _, hlen, _, _, _, _ => by simp at hlen
  | e :: es', d :: ds', cur, h, w, i, hlen, hh, hw, hdh, hdw => by
      simp only [List.length_cons] at hlen hh hw hdh hdw
      have hlen' : es'.length = ds'.length := by omega
      have hh' : 2 ^ es'.length ≤ h :=
        le_trans (Nat.pow_le_pow_right (by norm_num) (Nat.le_succ _)) hh
      have hw' : 2 ^ es'.length ≤ w :=
        le_trans (Nat.pow_le_pow_right (by norm_num) (Nat.le_succ _)) hw
      have hdh' : 2 ^ es'.length ∣ h := dvd_trans (pow_dvd_pow 2 (Nat.le_succ _)) hdh
      have hdw' : 2 ^ es'.length ∣ w := dvd_trans (pow_dvd_pow 2 (Nat.le_succ _)) hdw
      have e1 : 2 * (h / 2 ^ (es'.length + 1)) = h / 2 ^ es'.length :=
        double_div_of_dvd _ hdh
      have e2 : 2 * (w / 2 ^ (es'.length + 1)) = w / 2 ^ es'.length :=
        double_div_of_dvd _ hdw
      have p1' : 1 ≤ h / 2 ^ es'.length := (Nat.one_le_div_iff (by positivity)).mpr hh'
      have p2' : 1 ≤ w / 2 ^ es'.length := (Nat.one_le_div_iff (by positivity)).mpr hw'
      have hup : applyStage [Layer.conv cur (cur / 2)]
          (interpolate2 ⟨cur, h / 2 ^ (es'.length + 1), w / 2 ^ (es'.length + 1)⟩)
          = .ok ⟨cur / 2, h / 2 ^ es'.length, w / 2 ^ es'.length⟩ := by
        simp [applyStage, applyLayer, interpolate2, e1, e2, p1', p2']
      have hblk : applyStage
          [Layer.conv (e + cur / 2) d, Layer.relu, Layer.conv d d, Layer.relu]
          ⟨cur / 2 + e, h / 2 ^ es'.length, w / 2 ^ es'.length⟩
          = .ok ⟨d, h / 2 ^ es'.length, w / 2 ^ es'.length⟩ := by
        simp [applyStage, applyLayer, p1', p2', Nat.add_comm]
      have ih := decoderLoop_ok es' ds' d h w (i + 1) hlen' hh' hw' hdh' hdw'
      have hz : (revSkips (e :: es') h w).zip
            ((blocksFor (e :: es') (d :: ds') cur).zip (upsFor (d :: ds') cur))
          = (⟨e, h / 2 ^ es'.length, w / 2 ^ es'.length⟩,
              [Layer.conv (e + cur / 2) d, Layer.relu, Layer.conv d d, Layer.relu],
              [Layer.conv cur (cur / 2)])
            :: (revSkips es' h w).zip ((blocksFor es' ds' d).zip (upsFor ds' d)) := rfl
      rw [List.length_cons, hz]
      simp only [decoderLoop, hup, hblk, ih, and_self, if_true]
      simp [lastD, revSkips]

lemma decoderLoop_concat_fail : ∀ (es ds : List ℕ) (cur h w i : ℕ),
    es.length = ds.length →
    2 ^ es.length ≤ h → 2 ^ es.length ≤ w →
    ¬ (2 ^ es.length ∣ h ∧ 2 ^ es.length ∣ w) →
    ∃ j, decoderLoop ((revSkips es h w).zip ((blocksFor es ds cur).zip (upsFor ds cur))) i
        ⟨cur, h / 2 ^ es.length, w / 2 ^ es.length⟩ = .error (.concatMismatch j)
  | [], _, _, _, _, _, _, _, _, hnd => by simp at hnd
  | e :: es, [], _, _, _, _, hlen, _, _, _ => by simp at hlen
  | e :: es', d :: ds', cur, h, w, i, hlen, hh, hw, hnd => by
      simp only [List.length_cons] at hlen hh hw hnd
      have hlen' : es'.length = ds'.length := by omega
      have hh' : 2 ^ es'.length ≤ h :=
        le_trans (Nat.pow_le_pow_right (by norm_num) (Nat.le_succ _)) hh
      have hw' : 2 ^ es'.length ≤ w :=
        le_trans (Nat.pow_le_pow_right (by norm_num) (Nat.le_succ _)) hw
      have p1 : 1 ≤ h / 2 ^ (es'.length + 1) :=
        (Nat.one_le_div_iff (by positivity)).mpr hh
      have p2 : 1 ≤ w / 2 ^ (es'.length + 1) :=
        (Nat.one_le_div_iff (by positivity)).mpr hw
      have p1' : 1 ≤ h / 2 ^ es'.length := (Nat.one_le_div_iff (by positivity)).mpr hh'
      have p2' : 1 ≤ w / 2 ^ es'.length := (Nat.one_le_div_iff (by positivity)).mpr hw'
      by_cases hc : 2 * (h / 2 ^ (es'.length + 1)) = h / 2 ^ es'.length
          ∧ 2 * (w / 2 ^ (es'.length + 1)) = w / 2 ^ es'.length
      · have hup : applyStage [Layer.conv cur (cur / 2)]
            (interpolate2 ⟨cur, h / 2 ^ (es'.length + 1), w / 2 ^ (es'.length + 1)⟩)
            = .ok ⟨cur / 2, h / 2 ^ es'.length, w / 2 ^ es'.length⟩ := by
          simp [applyStage, applyLayer, interpolate2, hc.1, hc.2, p1', p2']
        have hblk : applyStage
            [Layer.conv (e + cur / 2) d, Layer.relu, Layer.conv d d, Layer.relu]
            ⟨cur / 2 + e, h / 2 ^ es'.length, w / 2 ^ es'.length⟩
            = .ok ⟨d, h / 2 ^ es'.length, w / 2 ^ es'.length⟩ := by
          simp [applyStage, applyLayer, p1', p2', Nat.add_comm]
        have hnd' : ¬ (2 ^ es'.length ∣ h ∧ 2 ^ es'.length ∣ w) := by
          rintro ⟨dh, dw⟩
          exact hnd ⟨dvd_step _ dh hc.1, dvd_step _ dw hc.2⟩
        obtain ⟨j, hj⟩ :=
          decoderLoop_concat_fail es' ds' d h w (i + 1) hlen' hh' hw' hnd'
        refine ⟨j, ?_⟩
        have hz : (revSkips (e :: es') h w).zip
              ((blocksFor (e :: es') (d :: ds') cur).zip (upsFor (d :: ds') cur))
            = (⟨e, h / 2 ^ es'.length, w / 2 ^ es'.length⟩,
                [Layer.conv (e + cur / 2) d, Layer.relu, Layer.conv d d, Layer.relu],
                [Layer.conv cur (cur / 2)])
              :: (revSkips es' h w).zip ((blocksFor es' ds' d).zip (upsFor ds' d)) := rfl
        rw [List.length_cons, hz]
        simp only [decoderLoop, hup, hblk, hj, and_self, if_true]
      · have q1 : 1 ≤ 2 * (h / 2 ^ (es'.length + 1)) := by omega
        have q2 : 1 ≤ 2 * (w / 2 ^ (es'.length + 1)) := by omega
        have hup : applyStage [Layer.conv cur (cur / 2)]
            (interpolate2 ⟨cur, h / 2 ^ (es'.length + 1), w / 2 ^ (es'.length + 1)⟩)
            = .ok ⟨cur / 2, 2 * (h / 2 ^ (es'.length + 1)),
                   2 * (w / 2 ^ (es'.length + 1))⟩ := by
          simp [applyStage, applyLayer, interpolate2, q1, q2]
        refine ⟨i, ?_⟩
        have hz : (revSkips (e :: es') h w).zip
              ((blocksFor (e :: es') (d :: ds') cur).zip (upsFor (d :: ds') cur))
            = (⟨e, h / 2 ^ es'.length, w / 2 ^ es'.length⟩,
                [Layer.conv (e + cur / 2) d, Layer.relu, Layer.conv d d, Layer.relu],
                [Layer.conv cur (cur / 2)])
              :: (revSkips es' h w).zip ((blocksFor es' ds' d).zip (upsFor ds' d)) := rfl
        rw [List.length_cons, hz]
        simp only [decoderLoop, hup]
        rw [if_neg]
        intro hcc
        exact hc ⟨hcc.1, hcc.2⟩

/-! ## Full forward-pass assembly lemmas -/

lemma decoder_forward_ok (decCh : List ℕ) (outLen h w : ℕ) (D : Decoder)
    (c0 : ℕ) (cs : List ℕ)
    (hD : YNetDecoder_init (c0 :: cs) decCh outLen 0 = .ok D)
    (hlen : decCh.length = (c0 :: cs).length)
    (hh : 2 ^ (c0 :: cs).length ≤ h) (hw : 2 ^ (c0 :: cs).length ≤ w)
    (hdh : 2 ^ (c0 :: cs).length ∣ h) (hdw : 2 ^ (c0 :: cs).length ∣ w) :
    YNetDecoder_forward D (⟨c0, h, w⟩ :: encTail c0 cs h w)
      = .ok (⟨outLen, h, w⟩, revSkips ((c0 :: cs).reverse) h w) := by
  simp only [List.length_cons] at hlen hh hw hdh hdw
  have hrevne : (c0 :: cs).reverse ≠ [] := by simp
  obtain ⟨cc, ecRest, hec⟩ := List.exists_cons_of_ne_nil hrevne
  have hcc : lastD cs c0 = cc := by
    have h1 : (c0 :: cs).getLast? = some cc := by
      rw [← List.head?_reverse, hec]
      rfl
    exact lastD_eq_getLast (c0 :: cs) cc c0 h1
  have hdne : decCh ≠ [] := by
    intro hnil
    rw [hnil] at hlen
    simp at hlen
  obtain ⟨dl, hdl⟩ : ∃ dl, decCh.getLast? = some dl := by
    cases hgl : decCh.getLast? with
    | none => exact absurd (List.getLast?_eq_none_iff.mp hgl) hdne
    | some dl => exact ⟨dl, rfl⟩
  have hlere : (cc :: ecRest).length = cs.length + 1 := by
    rw [← hec]
    simp
  have hDeq := decoder_init_eq (c0 :: cs) decCh outLen 0 cc ecRest
    (by simpa using hec) dl hdl
  rw [hD] at hDeq
  injection hDeq with hDeq
  subst hDeq
  have hp1 : 1 ≤ h / 2 ^ (cs.length + 1) :=
    (Nat.one_le_div_iff (by positivity)).mpr hh
  have hp2 : 1 ≤ w / 2 ^ (cs.length + 1) :=
    (Nat.one_le_div_iff (by positivity)).mpr hw
  have hcen : applyStage
      [Layer.conv cc (cc * 2), Layer.relu, Layer.conv (cc * 2) (cc * 2), Layer.relu]
      ⟨lastD cs c0, h / 2 ^ (cs.length + 1), w / 2 ^ (cs.length + 1)⟩
      = .ok ⟨cc * 2, h / 2 ^ (cs.length + 1), w / 2 ^ (cs.length + 1)⟩ := by
    rw [hcc]
    simp [applyStage, applyLayer, hp1, hp2]
  have hloop := decoderLoop_ok (cc :: ecRest) decCh (cc * 2) h w 0
    (by omega) (by rw [hlere]; exact hh) (by rw [hlere]; exact hw)
    (by rw [hlere]; exact hdh) (by rw [hlere]; exact hdw)
  rw [hlere] at hloop
  have hlast : lastD decCh (cc * 2) = dl := lastD_eq_getLast decCh dl (cc * 2) hdl
  have hpred : applyStage [Layer.conv dl outLen] ⟨lastD decCh (cc * 2), h, w⟩
      = .ok ⟨outLen, h, w⟩ := by
    rw [hlast]
    have hhe : 1 ≤ h := le_trans (Nat.one_le_two_pow) hh
    have hwe : 1 ≤ w := le_trans (Nat.one_le_two_pow) hw
    simp [applyStage, applyLayer, hhe, hwe]
  simp only [YNetDecoder_forward, pyramid_reverse cs c0 h w, hec, hcen, hloop, hpred]

lemma decoder_forward_fail (decCh : List ℕ) (outLen h w : ℕ) (D : Decoder)
    (c0 : ℕ) (cs : List ℕ)
    (hD : YNetDecoder_init (c0 :: cs) decCh outLen 0 = .ok D)
    (hlen : decCh.length = (c0 :: cs).length)
    (hh : 2 ^ (c0 :: cs).length ≤ h) (hw : 2 ^ (c0 :: cs).length ≤ w)
    (hnd : ¬ (2 ^ (c0 :: cs).length ∣ h ∧ 2 ^ (c0 :: cs).length ∣ w)) :
    ∃ j, YNetDecoder_forward D (⟨c0, h, w⟩ :: encTail c0 cs h w)
      = .error (.concatMismatch j) := by
  simp only [List.length_cons] at hlen hh hw hnd
  have hrevne : (c0 :: cs).reverse ≠ [] := by simp
  obtain ⟨cc, ecRest, hec⟩ := List.exists_cons_of_ne_nil hrevne
  have hcc : lastD cs c0 = cc := by
    have h1 : (c0 :: cs).getLast? = some cc := by
      rw [← List.head?_reverse, hec]
      rfl
    exact lastD_eq_getLast (c0 :: cs) cc c0 h1
  have hdne : decCh ≠ [] := by
    intro hnil
    rw [hnil] at hlen
    simp at hlen
  obtain ⟨dl, hdl⟩ : ∃ dl, decCh.getLast? = some dl := by
    cases hgl : decCh.getLast? with
    | none => exact absurd (List.getLast?_eq_none_iff.mp hgl) hdne
    | some dl => exact ⟨dl, rfl⟩
  have hlere : (cc :: ecRest).length = cs.length + 1 := by
    rw [← hec]
    simp
  have hDeq := decoder_init_eq (c0 :: cs) decCh outLen 0 cc ecRest
    (by simpa using hec) dl hdl
  rw [hD] at hDeq
  injection hDeq with hDeq
  subst hDeq
  have hp1 : 1 ≤ h / 2 ^ (cs.length + 1) :=
    (Nat.one_le_div_iff (by positivity)).mpr hh
  have hp2 : 1 ≤ w / 2 ^ (cs.length + 1) :=
    (Nat.one_le_div_iff (by positivity)).mpr hw
  have hcen : applyStage
      [Layer.conv cc (cc * 2), Layer.relu, Layer.conv (cc * 2) (cc * 2), Layer.relu]
      ⟨lastD cs c0, h / 2 ^ (cs.length + 1), w / 2 ^ (cs.length + 1)⟩
      = .ok ⟨cc * 2, h / 2 ^ (cs.length + 1), w / 2 ^ (cs.length + 1)⟩ := by
    rw [hcc]
    simp [applyStage, applyLayer, hp1, hp2]
  obtain ⟨j, hloop⟩ := decoderLoop_concat_fail (cc :: ecRest) decCh (cc * 2) h w 0
    (by omega) (by rw [hlere]; exact hh) (by rw [hlere]; exact hw)
    (by rw [hlere]; exact hnd)
  rw [hlere] at hloop
  refine ⟨j, ?_⟩
  simp only [YNetDecoder_forward, pyramid_reverse cs c0 h w, hec, hcen, hloop]

lemma full_forward_ok (encCh decCh : List ℕ) (inCh outLen h w : ℕ)
    (hne : encCh ≠ []) (hlen : decCh.length = encCh.length)
    (hh : 2 ^ encCh.length ≤ h) (hw : 2 ^ encCh.length ≤ w)
    (hdh : 2 ^ encCh.length ∣ h) (hdw : 2 ^ encCh.length ∣ w) :
    fullForward inCh encCh decCh outLen 0 ⟨inCh, h, w⟩
      = .ok (⟨outLen, h, w⟩, revSkips encCh.reverse h w) := by
  obtain ⟨c0, cs, rfl⟩ := List.exists_cons_of_ne_nil hne
  have hdne : decCh ≠ [] := by
    intro hnil
    rw [hnil] at hlen
    simp at hlen
  have hok := decoder_init_isOk (c0 :: cs) decCh outLen 0 (by simp) hdne
  cases hDi : YNetDecoder_init (c0 :: cs) decCh outLen 0 with
  | error e => rw [hDi] at hok; cases hok
  | ok D =>
    have henc : encPyramid inCh (c0 :: cs) ⟨inCh, h, w⟩
        = .ok (⟨c0, h, w⟩ :: encTail c0 cs h w) := by
      simp only [encPyramid, YNetEncoder_init]
      exact encoder_forward_ok cs c0 inCh h w (by simpa using hh) (by simpa using hw)
    simp only [fullForward, henc, hDi]
    exact decoder_forward_ok decCh outLen h w D c0 cs hDi hlen hh hw hdh hdw

lemma full_forward_fail (encCh decCh : List ℕ) (inCh outLen h w : ℕ)
    (hne : encCh ≠ []) (hlen : decCh.length = encCh.length)
    (hh : 2 ^ encCh.length ≤ h) (hw : 2 ^ encCh.length ≤ w)
    (hnd : ¬ (2 ^ encCh.length ∣ h ∧ 2 ^ encCh.length ∣ w)) :
    ∃ j, fullForward inCh encCh decCh outLen 0 ⟨inCh, h, w⟩
      = .error (.concatMismatch j) := by
  obtain ⟨c0, cs, rfl⟩ := List.exists_cons_of_ne_nil hne
  have hdne : decCh ≠ [] := by
    intro hnil
    rw [hnil] at hlen
    simp at hlen
  have hok := decoder_init_isOk (c0 :: cs) decCh outLen 0 (by simp) hdne
  cases hDi : YNetDecoder_init (c0 :: cs) decCh outLen 0 with
  | error e => rw [hDi] at hok; cases hok
  | ok D =>
    have henc : encPyramid inCh (c0 :: cs) ⟨inCh, h, w⟩
        = .ok (⟨c0, h, w⟩ :: encTail c0 cs h w) := by
      simp only [encPyramid, YNetEncoder_init]
      exact encoder_forward_ok cs c0 inCh h w (by simpa using hh) (by simpa using hw)
    obtain ⟨j, hdec⟩ :=
      decoder_forward_fail decCh outLen h w D c0 cs hDi hlen hh hw hnd
    refine ⟨j, ?_⟩
    simp only [fullForward, henc, hDi, hdec]

/-! ## Summation and index-arithmetic lemmas -/

lemma sumRange_zero (f : ℕ → ℚ) : sumRange 0 f = 0 := rfl

lemma sumRange_succ (n : ℕ) (f : ℕ → ℚ) : sumRange (n + 1) f = sumRange n f + f n := by
  simp [sumRange, List.range_succ]

lemma sumRange_congr {n : ℕ} {f g : ℕ → ℚ} (h : ∀ k, k < n → f k = g k) :
    sumRange n f = sumRange n g := by
  induction n with
  | zero => rfl
  | succ m ih =>
      rw [sumRange_succ, sumRange_succ, ih (fun k hk => h k (by omega)), h m (by omega)]

lemma sumRange_const_zero (n : ℕ) : sumRange n (fun _ => (0 : ℚ)) = 0 := by
  induction n with
  | zero => rfl
  | succ m ih => rw [sumRange_succ, ih, add_zero]

lemma sumRange_nonneg {n : ℕ} {f : ℕ → ℚ} (h : ∀ k, k < n → 0 ≤ f k) :
    0 ≤ sumRange n f := by
  induction n with
  | zero => exact le_refl 0
  | succ m ih =>
      rw [sumRange_succ]
      have := ih (fun k hk => h k (by omega))
      have := h m (by omega)
      linarith

lemma sumRange_pos {n : ℕ} {f : ℕ → ℚ} (hn : 0 < n) (h : ∀ k, k < n → 0 < f k) :
    0 < sumRange n f := by
  cases n with
  | zero => omega
  | succ m =>
      rw [sumRange_succ]
      have h1 : 0 ≤ sumRange m f := sumRange_nonneg (fun k hk => (h k (by omega)).le)
      have h2 := h m (by omega)
      linarith

lemma sumRange_div (n : ℕ) (f : ℕ → ℚ) (c : ℚ) :
    sumRange n (fun k => f k / c) = sumRange n f / c := by
  induction n with
  | zero => simp [sumRange_zero]
  | succ m ih => rw [sumRange_succ, sumRange_succ, ih, add_div]

lemma sumRange_add_split (a b : ℕ) (f : ℕ → ℚ) :
    sumRange (a + b) f = sumRange a f + sumRange b (fun k => f (a + k)) := by
  induction b with
  | zero => simp [sumRange_zero]
  | succ m ih =>
      rw [show a + (m + 1) = (a + m) + 1 from rfl, sumRange_succ, ih, sumRange_succ]
      ring

lemma sumRange_mul (H W : ℕ) (f : ℕ → ℚ) :
    sumRange (H * W) f = sumRange H (fun i => sumRange W (fun j => f (i * W + j))) := by
  induction H with
  | zero => simp [sumRange_zero]
  | succ m ih =>
      rw [show (m + 1) * W = m * W + W from by ring, sumRange_add_split, ih, sumRange_succ]

lemma sumRange_single (n k0 : ℕ) (f : ℕ → ℚ) (hk : k0 < n)
    (h0 : ∀ k, k < n → k ≠ k0 → f k = 0) : sumRange n f = f k0 := by
  induction n with
  | zero => omega
  | succ m ih =>
      rw [sumRange_succ]
      by_cases hm : k0 = m
      · subst hm
        rw [sumRange_congr (fun k hk2 => h0 k (by omega) (by omega)),
          sumRange_const_zero, zero_add]
      · rw [h0 m (by omega) (by omega), add_zero]
        exact ih (by omega) (fun k hk2 hne => h0 k (by omega) hne)

lemma flatIx4 (Nb C H W n c i j : ℕ) :
    flatIx [Nb, C, H, W] [n, c, i, j] = ((n * C + c) * H + i) * W + j := by
  simp [flatIx, prodList]
  ring

lemma flatIx3 (Nb C L n c k : ℕ) :
    flatIx [Nb, C, L] [n, c, k] = (n * C + c) * L + k := by
  simp [flatIx, prodList]
  ring

lemma spatial_lt {H W i j : ℕ} (hi : i < H) (hj : j < W) : i * W + j < H * W :=
  calc i * W + j < i * W + W := by omega
  _ = (i + 1) * W := by ring
  _ ≤ H * W := Nat.mul_le_mul_right W (by omega)

lemma idx_div {W : ℕ} (i j : ℕ) (hj : j < W) : (i * W + j) / W = i := by
  rw [show i * W + j = W * i + j from by ring, Nat.mul_add_div (by omega),
    Nat.div_eq_of_lt hj, add_zero]

lemma idx_mod {W : ℕ} (i j : ℕ) (hj : j < W) : (i * W + j) % W = j := by
  rw [show i * W + j = W * i + j from by ring, Nat.mul_add_mod, Nat.mod_eq_of_lt hj]

lemma unflatten3 (Nb C L n c k : ℕ) (hc : c < C) (hk : k < L) :
    unflatten [Nb, C, L] ((n * C + c) * L + k) = [n, c, k] := by
  have key : (n * C + c) * L + k = (C * L) * n + (c * L + k) := by ring
  have hlt : c * L + k < C * L :=
    calc c * L + k < c * L + L := by omega
    _ = (c + 1) * L := by ring
    _ ≤ C * L := Nat.mul_le_mul_right L (by omega)
  have e1 : ((n * C + c) * L + k) / (C * L) = n := by
    rw [key, Nat.mul_add_div (Nat.mul_pos (by omega) (by omega)), Nat.div_eq_of_lt hlt,
      add_zero]
  have e2 : ((n * C + c) * L + k) % (C * L) = c * L + k := by
    rw [key, Nat.mul_add_mod, Nat.mod_eq_of_lt hlt]
  have e3 : (c * L + k) / L = c := idx_div c k hk
  have e4 : (c * L + k) % L = k := idx_mod c k hk
  simp [unflatten, prodList, e1, e2, e3, e4]

lemma unflatten4 (Nb C H W n c m : ℕ) (hc : c < C) (hm : m < H * W) :
    unflatten [Nb, C, H, W] ((n * C + c) * (H * W) + m) = [n, c, m / W, m % W] := by
  have key : (n * C + c) * (H * W) + m = (C * (H * W)) * n + (c * (H * W) + m) := by ring
  have hlt : c * (H * W) + m < C * (H * W) :=
    calc c * (H * W) + m < c * (H * W) + H * W := by omega
    _ = (c + 1) * (H * W) := by ring
    _ ≤ C * (H * W) := Nat.mul_le_mul_right (H * W) (by omega)
  have e1 : ((n * C + c) * (H * W) + m) / (C * (H * W)) = n := by
    rw [key, Nat.mul_add_div (Nat.mul_pos (by omega) (by omega)), Nat.div_eq_of_lt hlt,
      add_zero]
  have e2 : ((n * C + c) * (H * W) + m) % (C * (H * W)) = c * (H * W) + m := by
    rw [key, Nat.mul_add_mod, Nat.mod_eq_of_lt hlt]
  have e3 : (c * (H * W) + m) / (H * W) = c := idx_div c m hm
  have e4 : (c * (H * W) + m) % (H * W) = m := idx_mod c m hm
  simp [unflatten, prodList, e1, e2, e3, e4, mul_assoc]

/-! ## Softmax / soft-argmax computation lemmas -/

lemma take_drop_dims (Nb Ch H W : ℕ) :
    [Nb, Ch, H, W].take 2 ++ [prodList ([Nb, Ch, H, W].drop 2)] = [Nb, Ch, H * W] := by
  simp [prodList]

lemma flat_val (x : Tensor) (Nb Ch H W n c m : ℕ) (hd : x.dims = [Nb, Ch, H, W])
    (hc : c < Ch) (hm : m < H * W) :
    (x.view [Nb, Ch, H * W]).val [n, c, m] = x.val [n, c, m / W, m % W] := by
  simp only [Tensor.view, hd]
  rw [flatIx3, unflatten4 Nb Ch H W n c m hc hm]

lemma flatten2_val (x : Tensor) (Nb Ch H W n c m : ℕ) (hd : x.dims = [Nb, Ch, H, W])
    (hc : c < Ch) (hm : m < H * W) :
    x.flatten2.val [n, c, m] = x.val [n, c, m / W, m % W] := by
  rw [Tensor.flatten2, hd, take_drop_dims]
  exact flat_val x Nb Ch H W n c m hd hc hm

lemma flatten2_dims (x : Tensor) (Nb Ch H W : ℕ) (hd : x.dims = [Nb, Ch, H, W]) :
    x.flatten2.dims = [Nb, Ch, H * W] := by
  rw [Tensor.flatten2, hd, take_drop_dims]
  rfl

lemma posx_val (x : Tensor) (Nb Ch H W k : ℕ) (hd : x.dims = [Nb, Ch, H, W]) :
    (create_meshgrid x false).2.reshape_all.val [k] = ((k % W : ℕ) : ℚ) := by
  simp [create_meshgrid, Tensor.reshape_all, Tensor.view, hd, prodList, flatIx, unflatten]

lemma posy_val (x : Tensor) (Nb Ch H W k : ℕ) (hd : x.dims = [Nb, Ch, H, W]) :
    (create_meshgrid x false).1.reshape_all.val [k] = ((k / W : ℕ) : ℚ) := by
  simp [create_meshgrid, Tensor.reshape_all, Tensor.view, hd, prodList, flatIx, unflatten]

lemma posx_dims (x : Tensor) (Nb Ch H W : ℕ) (hd : x.dims = [Nb, Ch, H, W]) :
    (create_meshgrid x false).2.reshape_all.dims = [H * W] := by
  simp [create_meshgrid, Tensor.reshape_all, Tensor.view, hd, prodList]

lemma posy_dims (x : Tensor) (Nb Ch H W : ℕ) (hd : x.dims = [Nb, Ch, H, W]) :
    (create_meshgrid x false).1.reshape_all.dims = [H * W] := by
  simp [create_meshgrid, Tensor.reshape_all, Tensor.view, hd, prodList]

lemma bd_dims (A B L : ℕ) : Tensor.broadcastDims [L] [A, B, L] = [A, B, L] := by
  simp [Tensor.broadcastDims, Tensor.leftPad1, Tensor.bdim, List.replicate]

lemma bidx1 (L n ch k : ℕ) (hk : k < L) :
    Tensor.broadcastIndex [L] [n, ch, k] = [k] := by
  have e1 : (if L = 1 then 0 else k) = k := by split <;> omega
  simp [Tensor.broadcastIndex, e1]

lemma bidx3 (A B L n ch k : ℕ) (hn : n < A) (hch : ch < B) (hk : k < L) :
    Tensor.broadcastIndex [A, B, L] [n, ch, k] = [n, ch, k] := by
  have e1 : (if A = 1 then 0 else n) = n := by split <;> omega
  have e2 : (if B = 1 then 0 else ch) = ch := by split <;> omega
  have e3 : (if L = 1 then 0 else k) = k := by split <;> omega
  simp [Tensor.broadcastIndex, e1, e2, e3]

lemma softmax_val (e : ℚ → ℚ) (x : Tensor) (Nb Ch H W n c i j : ℕ)
    (hd : x.dims = [Nb, Ch, H, W]) (hc : c < Ch) (hi : i < H) (hj : j < W) :
    (YNetTorch_softmax e x).val [n, c, i, j]
      = e (x.val [n, c, i, j])
        / sumRange (H * W) (fun m => e (x.val [n, c, m / W, m % W])) := by
  have hk : i * W + j < H * W := spatial_lt hi hj
  have hfl : flatIx [Nb, Ch, H, W] [n, c, i, j] = (n * Ch + c) * (H * W) + (i * W + j) := by
    rw [flatIx4]; ring
  have stepA : (YNetTorch_softmax e x).val [n, c, i, j]
      = (softmaxDim2 e (x.view (x.dims.take 2 ++ [prodList (x.dims.drop 2)]))).val
          (unflatten (x.dims.take 2 ++ [prodList (x.dims.drop 2)])
            (flatIx x.dims [n, c, i, j])) := rfl
  rw [stepA, hd, take_drop_dims, hfl, unflatten3 Nb Ch (H * W) n c (i * W + j) hc hk]
  simp only [softmaxDim2, Tensor.view, hd]
  rw [show ([Nb, Ch, H * W] : List ℕ).getD 2 0 = H * W from rfl]
  rw [show flatIx [Nb, Ch, H * W] [n, c, i * W + j] = (n * Ch + c) * (H * W) + (i * W + j) from
    by rw [flatIx3]]
  rw [unflatten4 Nb Ch H W n c (i * W + j) hc hk, idx_div i j hj, idx_mod i j hj]
  congr 1
  refine sumRange_congr (fun m hm => ?_)
  rw [show flatIx [Nb, Ch, H * W] [n, c, m] = (n * Ch + c) * (H * W) + m from by rw [flatIx3]]
  rw [unflatten4 Nb Ch H W n c m hc hm]

lemma softmax_dims (e : ℚ → ℚ) (x : Tensor) : (YNetTorch_softmax e x).dims = x.dims := rfl

lemma softargmax_dims (x : Tensor) (Nb Ch H W : ℕ) (hd : x.dims = [Nb, Ch, H, W]) :
    (softargmax_on_softmax_map x).dims = [Nb, Ch, 2] := by
  simp only [softargmax_on_softmax_map, Tensor.cat_last, Tensor.sum_last_keepdim,
    Tensor.lastDim, Tensor.tmul]
  rw [posx_dims x Nb Ch H W hd, posy_dims x Nb Ch H W hd, flatten2_dims x Nb Ch H W hd,
    bd_dims]
  simp [List.getLastD_concat]

lemma softargmax_val (x : Tensor) (Nb Ch H W n ch : ℕ)
    (hd : x.dims = [Nb, Ch, H, W]) (hn : n < Nb) (hch : ch < Ch) :
    (softargmax_on_softmax_map x).val [n, ch, 0]
      = sumRange (H * W) (fun k => ((k % W : ℕ) : ℚ) * x.val [n, ch, k / W, k % W])
    ∧ (softargmax_on_softmax_map x).val [n, ch, 1]
      = sumRange (H * W) (fun k => ((k / W : ℕ) : ℚ) * x.val [n, ch, k / W, k % W]) := by
  have htmvx : ∀ k, k < H * W →
      ((create_meshgrid x false).2.reshape_all.tmul x.flatten2).val [n, ch, k]
        = ((k % W : ℕ) : ℚ) * x.val [n, ch, k / W, k % W] := by
    intro k hk
    simp only [Tensor.tmul]
    rw [posx_dims x Nb Ch H W hd, flatten2_dims x Nb Ch H W hd, bidx1 _ n ch k hk,
      bidx3 Nb Ch (H * W) n ch k hn hch hk, posx_val x Nb Ch H W k hd,
      flatten2_val x Nb Ch H W n ch k hd hch hk]
  have htmvy : ∀ k, k < H * W →
      ((create_meshgrid x false).1.reshape_all.tmul x.flatten2).val [n, ch, k]
        = ((k / W : ℕ) : ℚ) * x.val [n, ch, k / W, k % W] := by
    intro k hk
    simp only [Tensor.tmul]
    rw [posy_dims x Nb Ch H W hd, flatten2_dims x Nb Ch H W hd, bidx1 _ n ch k hk,
      bidx3 Nb Ch (H * W) n ch k hn hch hk, posy_val x Nb Ch H W k hd,
      flatten2_val x Nb Ch H W n ch k hd hch hk]
  have htmdx : ((create_meshgrid x false).2.reshape_all.tmul x.flatten2).dims
      = [Nb, Ch, H * W] := by
    simp only [Tensor.tmul]
    rw [posx_dims x Nb Ch H W hd, flatten2_dims x Nb Ch H W hd, bd_dims]
  have htmdy : ((create_meshgrid x false).1.reshape_all.tmul x.flatten2).dims
      = [Nb, Ch, H * W] := by
    simp only [Tensor.tmul]
    rw [posy_dims x Nb Ch H W hd, flatten2_dims x Nb Ch H W hd, bd_dims]
  have hexv : ((create_meshgrid x false).2.reshape_all.tmul x.flatten2).sum_last_keepdim.val
      [n, ch, 0] = sumRange (H * W) (fun k => ((k % W : ℕ) : ℚ) * x.val [n, ch, k / W, k % W]) := by
    simp only [Tensor.sum_last_keepdim, Tensor.lastDim, htmdx]
    rw [show ([Nb, Ch, H * W] : List ℕ).getLastD 0 = H * W from rfl]
    refine sumRange_congr (fun k hk => ?_)
    rw [show ([n, ch, 0] : List ℕ).dropLast ++ [k] = [n, ch, k] from by simp]
    exact htmvx k hk
  have heyv : ((create_meshgrid x false).1.reshape_all.tmul x.flatten2).sum_last_keepdim.val
      [n, ch, 0] = sumRange (H * W) (fun k => ((k / W : ℕ) : ℚ) * x.val [n, ch, k / W, k % W]) := by
    simp only [Tensor.sum_last_keepdim, Tensor.lastDim, htmdy]
    rw [show ([Nb, Ch, H * W] : List ℕ).getLastD 0 = H * W from rfl]
    refine sumRange_congr (fun k hk => ?_)
    rw [show ([n, ch, 0] : List ℕ).dropLast ++ [k] = [n, ch, k] from by simp]
    exact htmvy k hk
  have hlex : ((create_meshgrid x false).2.reshape_all.tmul x.flatten2).sum_last_keepdim.lastDim
      = 1 := by
    simp [Tensor.sum_last_keepdim, Tensor.lastDim, List.getLastD_concat]
  constructor
  · show (Tensor.cat_last _ _).val [n, ch, 0] = _
    simp only [Tensor.cat_last, hlex]
    rw [show ([n, ch, 0] : List ℕ).getLastD 0 = 0 from rfl, if_pos (by omega)]
    exact hexv
  · show (Tensor.cat_last _ _).val [n, ch, 1] = _
    simp only [Tensor.cat_last, hlex]
    rw [show ([n, ch, 1] : List ℕ).getLastD 0 = 1 from rfl, if_neg (by omega)]
    rw [show ([n, ch, 1] : List ℕ).dropLast ++ [1 - 1] = [n, ch, 0] from by simp]
    exact heyv

lemma revSkips_length : ∀ (es : List ℕ) (h w : ℕ), (revSkips es h w).length = es.length
  | [], _, _ => rfl
  | _ :: es, h, w => by simp [revSkips, revSkips_length es h w]

/-! ## Claim theorems -/

/-- C1: for every valid configuration (`encoderChannels` a non-empty list of
positive integers) and every input whose channel count equals
`semanticClasses + observedLen`, whenever the encoder forward pass returns a
feature pyramid, that pyramid has exactly `len(encoderChannels) + 1`
entries, ordered from finest to coarsest spatial resolution (non-increasing
height and width). -/
theorem C1_encoder_pyramid (sc obs : ℕ) (encCh : List ℕ) (h w : ℕ)
    (E : Encoder) (fs : List Shape)
    (hne : encCh ≠ []) (hpos : ∀ c ∈ encCh, 0 < c)
    (hE : YNetEncoder_init (sc + obs) encCh = .ok E)
    (hfs : YNetEncoder_forward E.stages ⟨sc + obs, h, w⟩ = .ok fs) :
    fs.length = encCh.length + 1
      ∧ List.Chain' (fun p q : Shape => q.h ≤ p.h ∧ q.w ≤ p.w) fs := by
  obtain ⟨c0, cs, rfl⟩ := List.exists_cons_of_ne_nil hne
  simp only [YNetEncoder_init, Except.ok.injEq] at hE
  subst hE
  constructor
  · rw [encForward_length _ _ _ hfs]
    simp [midStages_length]
  · exact (encForward_chain _ _ _ hfs).tail

/-- Witness for C1 at the configuration `[1, 2]`, input 1 channel, 4×4. -/
theorem C1_encoder_pyramid_witness :
    ([1, 2] : List ℕ) ≠ []
      ∧ ([⟨1, 4, 4⟩, ⟨2, 2, 2⟩, ⟨2, 1, 1⟩] : List Shape).length = [1, 2].length + 1
      ∧ List.Chain' (fun p q : Shape => q.h ≤ p.h ∧ q.w ≤ p.w)
          [⟨1, 4, 4⟩, ⟨2, 2, 2⟩, ⟨2, 1, 1⟩] :=
  ⟨by decide,
   C1_encoder_pyramid 1 0 [1, 2] 4 4
     ⟨1, [[Layer.conv 1 1, Layer.relu],
          [Layer.maxpool2, Layer.conv 1 2, Layer.relu, Layer.conv 2 2, Layer.relu],
          [Layer.maxpool2]]⟩
     [⟨1, 4, 4⟩, ⟨2, 2, 2⟩, ⟨2, 1, 1⟩]
     (by decide) (by decide) (by decide) (by decide)⟩

/-- C2 counterexample: under the spec's own validity invariant
`len(decoderChannels) = len(encoderChannels) − 1` (encoder `[1, 1]`,
decoder `[1]`), a full forward pass on a 4×4 input succeeds and consumes
exactly `len(decoderChannels)` skip entries, but its output is 2×2 — half
the resolution of the finest pyramid entry (4×4) — refuting the claim that
the output is always at the finest pyramid resolution. -/
theorem C2_counterexample :
    ([1] : List ℕ).length = ([1, 1] : List ℕ).length - 1
      ∧ encPyramid 1 [1, 1] ⟨1, 4, 4⟩ = .ok [⟨1, 4, 4⟩, ⟨1, 2, 2⟩, ⟨1, 1, 1⟩]
      ∧ fullForward 1 [1, 1] [1] 1 0 ⟨1, 4, 4⟩ = .ok (⟨1, 2, 2⟩, [⟨1, 2, 2⟩])
      ∧ (2 : ℕ) ≠ 4 := by decide

/-- C2 (amended): the decoder consumes exactly `len(decoderChannels)`
pyramid entries (the bottleneck excluded), in coarse-to-fine order (it
consumes precisely the reversed pyramid minus its first entry), and returns
`outputLen` channels; when `len(decoderChannels) = len(encoderChannels)` —
as in the repository's default configuration — the output spatial
resolution equals that of the finest pyramid entry. -/
theorem C2_decoder_consumption (encCh decCh : List ℕ) (inCh outLen h w : ℕ)
    (E : Encoder) (D : Decoder) (fs : List Shape)
    (hE : YNetEncoder_init inCh encCh = .ok E)
    (hD : YNetDecoder_init encCh decCh outLen 0 = .ok D)
    (hlen : decCh.length = encCh.length)
    (hh : 2 ^ encCh.length ≤ h) (hw : 2 ^ encCh.length ≤ w)
    (hdh : 2 ^ encCh.length ∣ h) (hdw : 2 ^ encCh.length ∣ w)
    (hfs : YNetEncoder_forward E.stages ⟨inCh, h, w⟩ = .ok fs) :
    ∃ out : Shape, ∃ consumed : List Shape,
      YNetDecoder_forward D fs = .ok (out, consumed)
        ∧ consumed.length = decCh.length
        ∧ consumed = fs.reverse.tail
        ∧ out.c = outLen
        ∧ out.h = (fs.headD ⟨0, 0, 0⟩).h
        ∧ out.w = (fs.headD ⟨0, 0, 0⟩).w := by
  cases encCh with
  | nil => simp [YNetEncoder_init] at hE
  | cons c0 cs =>
    simp only [YNetEncoder_init, Except.ok.injEq] at hE
    subst hE
    rw [encoder_forward_ok cs c0 inCh h w (by simpa using hh) (by simpa using hw)] at hfs
    injection hfs with hfs
    subst hfs
    refine ⟨⟨outLen, h, w⟩, revSkips ((c0 :: cs).reverse) h w,
      decoder_forward_ok decCh outLen h w D c0 cs hD hlen hh hw hdh hdw, ?_, ?_, rfl, rfl, rfl⟩
    · rw [revSkips_length]
      simp only [List.length_reverse, List.length_cons] at hlen ⊢
      omega
    · rw [pyramid_reverse]
      rfl

/-- Witness for C2 at encoder `[1]`, decoder `[1]`, input 2×2. -/
theorem C2_decoder_consumption_witness :
    ((2 : ℕ) ^ ([1] : List ℕ).length ∣ 2)
      ∧ ∃ out : Shape, ∃ consumed : List Shape,
          YNetDecoder_forward
              ⟨[Layer.conv 1 2, Layer.relu, Layer.conv 2 2, Layer.relu],
               [[Layer.conv 2 1]],
               [[Layer.conv 2 1, Layer.relu, Layer.conv 1 1, Layer.relu]],
               [Layer.conv 1 1]⟩
              [⟨1, 2, 2⟩, ⟨1, 1, 1⟩]
            = .ok (out, consumed)
            ∧ consumed.length = ([1] : List ℕ).length
            ∧ consumed = ([⟨1, 2, 2⟩, ⟨1, 1, 1⟩] : List Shape).reverse.tail
            ∧ out.c = 1
            ∧ out.h = (([⟨1, 2, 2⟩, ⟨1, 1, 1⟩] : List Shape).headD ⟨0, 0, 0⟩).h
            ∧ out.w = (([⟨1, 2, 2⟩, ⟨1, 1, 1⟩] : List Shape).headD ⟨0, 0, 0⟩).w :=
  ⟨by decide,
   C2_decoder_consumption [1] [1] 1 1 2 2
     ⟨1, [[Layer.conv 1 1, Layer.relu], [Layer.maxpool2]]⟩
     ⟨[Layer.conv 1 2, Layer.relu, Layer.conv 2 2, Layer.relu],
      [[Layer.conv 2 1]],
      [[Layer.conv 2 1, Layer.relu, Layer.conv 1 1, Layer.relu]],
      [Layer.conv 1 1]⟩
     [⟨1, 2, 2⟩, ⟨1, 1, 1⟩]
     (by decide) (by decide) (by decide) (by decide) (by decide) (by decide) (by decide)
     (by decide)⟩

/-- C3 counterexample: the repository's own default configuration (encoder
and decoder channel lists both of length 5, from `get_ynet`) violates the
claimed invariant `len(decoderChannels) = len(encoderChannels) − 1`, yet
decoder construction succeeds — no error is raised. -/
theorem C3_counterexample :
    isOkE (YNetDecoder_init [32, 32, 64, 64, 64] [64, 64, 64, 32, 32] 12 0) = true
      ∧ ¬ ([64, 64, 64, 32, 32] : List ℕ).length
          = ([32, 32, 64, 64, 64] : List ℕ).length - 1 := by decide

/-- C3 (amended): decoder construction performs no validation of the channel
list lengths at all: for every pair of non-empty channel lists (whatever
their lengths) and every `output_len` and `traj`, construction succeeds;
length mismatches are silently truncated by the pairwise `zip`s. -/
theorem C3_no_length_validation (encCh decCh : List ℕ) (o t : ℕ)
    (hec : encCh ≠ []) (hdc : decCh ≠ []) :
    isOkE (YNetDecoder_init encCh decCh o t) = true :=
  decoder_init_isOk encCh decCh o t hec hdc

/-- Witness for C3 (amended) with deliberately mismatched lengths 2 and 3. -/
theorem C3_no_length_validation_witness :
    ([5, 6] : List ℕ) ≠ [] ∧ isOkE (YNetDecoder_init [5, 6] [7, 8, 9] 3 0) = true :=
  ⟨by decide, C3_no_length_validation [5, 6] [7, 8, 9] 3 0 (by decide) (by decide)⟩

/-- C6 counterexample: with encoder channels `[1, 1]` (two pooling stages)
and decoder channels `[1]` — the spec's validity invariant — a 5×5 input
is not a multiple of `2 ^ 2 = 4`, yet the full encoder-then-decoder pass
succeeds without any shape error (the mismatched finest concatenation is
never reached because the decoder loop stops one stage early). -/
theorem C6_counterexample :
    isOkE (fullForward 1 [1, 1] [1] 1 0 ⟨1, 5, 5⟩) = true
      ∧ ¬ ((2 : ℕ) ^ ([1, 1] : List ℕ).length ∣ 5) := by decide

/-- C6 (amended): for `len(decoderChannels) = len(encoderChannels) = n` (as
in the repository's default configuration) and input spatial dimensions at
least `2 ^ n` (n = the number of pooling stages): inputs with both
dimensions multiples of `2 ^ n` pass every concatenation and the full pass
succeeds; otherwise the pass fails with a shape error at a skip
concatenation (necessarily the first one whose pooled and upsampled
resolutions disagree, since the loop fails at the first concatenation it
cannot perform). -/
theorem C6_divisibility (encCh decCh : List ℕ) (inCh outLen h w : ℕ)
    (hne : encCh ≠ []) (hlen : decCh.length = encCh.length)
    (hh : 2 ^ encCh.length ≤ h) (hw : 2 ^ encCh.length ≤ w) :
    ((2 ^ encCh.length ∣ h ∧ 2 ^ encCh.length ∣ w) →
        isOkE (fullForward inCh encCh decCh outLen 0 ⟨inCh, h, w⟩) = true)
      ∧ (¬ (2 ^ encCh.length ∣ h ∧ 2 ^ encCh.length ∣ w) →
        ∃ i, fullForward inCh encCh decCh outLen 0 ⟨inCh, h, w⟩
          = .error (.concatMismatch i)) := by
  constructor
  · rintro ⟨hdh, hdw⟩
    rw [full_forward_ok encCh decCh inCh outLen h w hne hlen hh hw hdh hdw]
    rfl
  · intro hnd
    exact full_forward_fail encCh decCh inCh outLen h w hne hlen hh hw hnd

/-- Witness for C6 at encoder `[4]`, decoder `[4]`, input 2×2. -/
theorem C6_divisibility_witness :
    (2 : ℕ) ^ ([4] : List ℕ).length ≤ 2
      ∧ isOkE (fullForward 3 [4] [4] 2 0 ⟨3, 2, 2⟩) = true :=
  ⟨by decide,
   (C6_divisibility [4] [4] 3 2 2 2 (by decide) (by decide) (by decide) (by decide)).1
     (by decide)⟩

/-- C7 counterexample: constructing the top-level model with
`semantic_classes = 1 > 0` and no segmentation backbone configured raises
no error; construction succeeds and silently substitutes the identity for
the backbone. -/
theorem C7_counterexample :
    isOkE (YNetTorch_init 8 12 none false 1 [4] [4] 1) = true
      ∧ initBackbone (YNetTorch_init 8 12 none false 1 [4] [4] 1)
          = some Backbone.identity
      ∧ (0 : ℕ) < 1 := by decide

/-- C7 (amended): with no backbone configured, construction always succeeds
(for non-empty channel lists), substitutes `nn.Identity()` for the
backbone, and still sizes the encoder input as
`semantic_classes + obs_len` — even when `semantic_classes > 0`. -/
theorem C7_no_backbone_no_error (obs pred : ℕ) (ufo : Bool) (sc : ℕ)
    (encCh decCh : List ℕ) (wp : ℕ)
    (hsc : 0 < sc) (hec : encCh ≠ []) (hdc : decCh ≠ []) :
    ∃ M : YNetTorch,
      YNetTorch_init obs pred none ufo sc encCh decCh wp = .ok M
        ∧ M.semantic_segmentation = Backbone.identity
        ∧ M.encoder.inChannels = sc + obs := by
  obtain ⟨c0, cs, rfl⟩ := List.exists_cons_of_ne_nil hec
  have hg := decoder_init_isOk (c0 :: cs) decCh pred 0 (by simp) hdc
  have ht := decoder_init_isOk (c0 :: cs) decCh pred wp (by simp) hdc
  cases hgD : YNetDecoder_init (c0 :: cs) decCh pred 0 with
  | error e => rw [hgD] at hg; cases hg
  | ok G =>
    cases htD : YNetDecoder_init (c0 :: cs) decCh pred wp with
    | error e => rw [htD] at ht; cases ht
    | ok T =>
      refine ⟨⟨Backbone.identity,
        ⟨sc + obs,
         [Layer.conv (sc + obs) c0, Layer.relu]
           :: (midStages (c0 :: cs) ++ [[Layer.maxpool2]])⟩, G, T⟩, ?_, rfl, rfl⟩
      simp only [YNetTorch_init, YNetEncoder_init, hgD, htD]

/-- Witness for C7 (amended). -/
theorem C7_no_backbone_no_error_witness :
    (0 : ℕ) < 2
      ∧ ∃ M : YNetTorch,
          YNetTorch_init 3 4 none true 2 [1] [1] 1 = .ok M
            ∧ M.semantic_segmentation = Backbone.identity
            ∧ M.encoder.inChannels = 2 + 3 :=
  ⟨by decide, C7_no_backbone_no_error 3 4 true 2 [1] [1] 1 (by decide) (by decide) (by decide)⟩

/-- C8 counterexample: with `use_features_only = true` but **no** backbone
configured, the semantic channel count is *not* replaced by 16: the encoder
input is sized `semantic_classes + obs_len = 3 + 1 = 4`, not `16 + 1`.
The 16-override only happens when `segmentation_model_fp` is set. -/
theorem C8_counterexample :
    initEncoderInChannels (YNetTorch_init 1 1 none true 3 [4] [4] 1) = some 4
      ∧ initEncoderInChannels (YNetTorch_init 1 1 none true 3 [4] [4] 1)
          ≠ some (16 + 1) := by decide

/-- C8 (amended): whenever features-only mode is selected **and a
segmentation backbone is configured**, the encoder input is sized
`16 + obs_len`, regardless of the `semantic_classes` value passed in; the
substitution is a construction-time constant. -/
theorem C8_features_only_16 (obs pred sc wp : ℕ) (encCh decCh : List ℕ)
    (hec : encCh ≠ []) (hdc : decCh ≠ []) :
    initEncoderInChannels
        (YNetTorch_init obs pred (some ()) true sc encCh decCh wp)
      = some (16 + obs) := by
  obtain ⟨c0, cs, rfl⟩ := List.exists_cons_of_ne_nil hec
  have hg := decoder_init_isOk (c0 :: cs) decCh pred 0 (by simp) hdc
  have ht := decoder_init_isOk (c0 :: cs) decCh pred wp (by simp) hdc
  cases hgD : YNetDecoder_init (c0 :: cs) decCh pred 0 with
  | error e => rw [hgD] at hg; cases hg
  | ok G =>
    cases htD : YNetDecoder_init (c0 :: cs) decCh pred wp with
    | error e => rw [htD] at ht; cases ht
    | ok T =>
      simp only [YNetTorch_init, YNetEncoder_init, hgD, htD, initEncoderInChannels, if_true]

/-- Witness for C8 (amended): `semantic_classes = 99` is ignored. -/
theorem C8_features_only_16_witness :
    ([1] : List ℕ) ≠ []
      ∧ initEncoderInChannels (YNetTorch_init 2 1 (some ()) true 99 [1] [1] 1)
          = some (16 + 2) :=
  ⟨by decide, C8_features_only_16 2 1 99 1 [1] [1] (by decide) (by decide)⟩

/-- C9: for every conditioning width `w > 0`, the trajectory decoder is the
very same structure as a goal decoder built with every encoder channel
count increased by `w` (identical layer input/output channel counts
everywhere), and hence the two compute the same function on every feature
pyramid. -/
theorem C9_traj_decoder_equiv (encCh decCh : List ℕ) (o wp : ℕ) (hw : 0 < wp) :
    YNetDecoder_init encCh decCh o wp
        = YNetDecoder_init (encCh.map (fun c => c + wp)) decCh o 0
      ∧ ∀ fs : List Shape,
          runDecoder (YNetDecoder_init encCh decCh o wp) fs
            = runDecoder (YNetDecoder_init (encCh.map (fun c => c + wp)) decCh o 0) fs := by
  have h1 : YNetDecoder_init encCh decCh o wp
      = YNetDecoder_init (encCh.map (fun c => c + wp)) decCh o 0 := by
    simp only [YNetDecoder_init]
    rw [if_pos (by omega), if_neg (by omega)]
  exact ⟨h1, fun fs => by rw [h1]⟩

/-- Witness for C9 at width 1. -/
theorem C9_traj_decoder_equiv_witness :
    (0 : ℕ) < 1
      ∧ YNetDecoder_init [2, 3] [4] 5 1
          = YNetDecoder_init ([2, 3].map (fun c => c + 1)) [4] 5 0 :=
  ⟨by decide, (C9_traj_decoder_equiv [2, 3] [4] 5 1 (by decide)).1⟩

/-- C4: soft-argmax of a one-hot distribution concentrated at grid cell
(i, j) — row i, column j — of an H×W channel returns exactly the
coordinate pair (j, i): the x (column) coordinate first, then the y (row)
coordinate.  `create_meshgrid` is modelled from the spec (its source file
is not available); see its doc-string. -/
theorem C4_softargmax_one_hot (x : Tensor) (Nb Ch H W n ch i j : ℕ)
    (hd : x.dims = [Nb, Ch, H, W]) (hn : n < Nb) (hch : ch < Ch)
    (hi : i < H) (hj : j < W)
    (hone : ∀ r s, r < H → s < W →
      x.val [n, ch, r, s] = if r = i ∧ s = j then 1 else 0) :
    (softargmax_on_softmax_map x).val [n, ch, 0] = (j : ℚ)
      ∧ (softargmax_on_softmax_map x).val [n, ch, 1] = (i : ℚ) := by
  obtain ⟨hx, hy⟩ := softargmax_val x Nb Ch H W n ch hd hn hch
  have hW : 0 < W := by omega
  have hk0 : i * W + j < H * W := spatial_lt hi hj
  have hzero : ∀ k, k < H * W → k ≠ i * W + j →
      x.val [n, ch, k / W, k % W] = 0 := by
    intro k hk hne
    have hdl : k / W < H := (Nat.div_lt_iff_lt_mul hW).mpr (by omega)
    have hml : k % W < W := Nat.mod_lt _ hW
    rw [hone (k / W) (k % W) hdl hml, if_neg]
    rintro ⟨h1, h2⟩
    apply hne
    have hmk : W * i + j = k := by
      rw [← h1, ← h2]
      exact Nat.div_add_mod k W
    rw [← hmk]
    ring
  have hat : x.val [n, ch, (i * W + j) / W, (i * W + j) % W] = 1 := by
    rw [idx_div i j hj, idx_mod i j hj, hone i j hi hj, if_pos ⟨rfl, rfl⟩]
  constructor
  · rw [hx, sumRange_single (H * W) (i * W + j) _ hk0
      (fun k hk hne => by rw [hzero k hk hne]; ring)]
    rw [hat, idx_mod i j hj]
    ring
  · rw [hy, sumRange_single (H * W) (i * W + j) _ hk0
      (fun k hk hne => by rw [hzero k hk hne]; ring)]
    rw [hat, idx_div i j hj]
    ring

/-- Witness for C4: one-hot at (row 0, column 1) on a 2×2 grid yields
coordinates (1, 0). -/
theorem C4_softargmax_one_hot_witness :
    (0 : ℕ) < 2
      ∧ (softargmax_on_softmax_map x4test).val [0, 0, 0] = ((1 : ℕ) : ℚ)
      ∧ (softargmax_on_softmax_map x4test).val [0, 0, 1] = ((0 : ℕ) : ℚ) := by
  refine ⟨by decide, C4_softargmax_one_hot x4test 1 1 2 2 0 0 0 1 rfl (by decide) (by decide)
    (by decide) (by decide) ?_⟩
  intro r s hr hs
  interval_cases r <;> interval_cases s <;> norm_num [x4test]

/-- C5: the spatial softmax is shape-preserving; for every batch element
and channel, the H×W output values are non-negative and sum to exactly 1
(hence within the 1e-5 tolerance; the model works in exact rational
arithmetic, with the positive exponential abstracted as `e`), and every
(batch, channel) output slice depends only on the same slice of the
input. -/
theorem C5_spatial_softmax (e : ℚ → ℚ) (x : Tensor) (Nb Ch H W n c : ℕ)
    (hd : x.dims = [Nb, Ch, H, W]) (he : ∀ q : ℚ, 0 < e q)
    (hc : c < Ch) (hH : 0 < H) (hW : 0 < W) :
    (YNetTorch_softmax e x).dims = x.dims
      ∧ (∀ i j, i < H → j < W → 0 ≤ (YNetTorch_softmax e x).val [n, c, i, j])
      ∧ sumRange H (fun i => sumRange W (fun j =>
          (YNetTorch_softmax e x).val [n, c, i, j])) = 1
      ∧ (∀ x' : Tensor, x'.dims = x.dims →
          (∀ i j, i < H → j < W → x'.val [n, c, i, j] = x.val [n, c, i, j]) →
          ∀ i j, i < H → j < W →
            (YNetTorch_softmax e x').val [n, c, i, j]
              = (YNetTorch_softmax e x).val [n, c, i, j]) := by
  have hS : 0 < sumRange (H * W) (fun m => e (x.val [n, c, m / W, m % W])) :=
    sumRange_pos (by positivity) (fun k hk => he _)
  have hexp : sumRange H (fun i => sumRange W (fun j => e (x.val [n, c, i, j])))
      = sumRange (H * W) (fun m => e (x.val [n, c, m / W, m % W])) := by
    rw [sumRange_mul]
    exact sumRange_congr (fun i hi => sumRange_congr (fun j hj => by
      rw [idx_div i j hj, idx_mod i j hj]))
  refine ⟨rfl, ?_, ?_, ?_⟩
  · intro i j hi hj
    rw [softmax_val e x Nb Ch H W n c i j hd hc hi hj]
    exact div_nonneg (he _).le hS.le
  · calc sumRange H (fun i => sumRange W (fun j =>
          (YNetTorch_softmax e x).val [n, c, i, j]))
        = sumRange H (fun i => sumRange W (fun j => e (x.val [n, c, i, j])
            / sumRange (H * W) (fun m => e (x.val [n, c, m / W, m % W])))) := by
          exact sumRange_congr (fun i hi => sumRange_congr (fun j hj => by
            rw [softmax_val e x Nb Ch H W n c i j hd hc hi hj]))
      _ = sumRange H (fun i => sumRange W (fun j => e (x.val [n, c, i, j]))
            / sumRange (H * W) (fun m => e (x.val [n, c, m / W, m % W]))) := by
          exact sumRange_congr (fun i hi => by rw [sumRange_div])
      _ = sumRange H (fun i => sumRange W (fun j => e (x.val [n, c, i, j])))
            / sumRange (H * W) (fun m => e (x.val [n, c, m / W, m % W])) := by
          rw [sumRange_div]
      _ = 1 := by
          rw [hexp]
          exact div_self (ne_of_gt hS)
  · intro x' hdx' hsame i j hi hj
    rw [softmax_val e x' Nb Ch H W n c i j (by rw [hdx', hd]) hc hi hj,
      softmax_val e x Nb Ch H W n c i j hd hc hi hj, hsame i j hi hj]
    congr 1
    refine sumRange_congr (fun m hm => ?_)
    rw [hsame (m / W) (m % W) ((Nat.div_lt_iff_lt_mul hW).mpr (by omega))
      (Nat.mod_lt _ hW)]

/-- Witness for C5 at the constant-one exponential on a 1×1×2×2 input. -/
theorem C5_spatial_softmax_witness :
    (0 : ℕ) < 2
      ∧ ((YNetTorch_softmax e5test x5test).dims = x5test.dims
        ∧ (∀ i j, i < 2 → j < 2 → 0 ≤ (YNetTorch_softmax e5test x5test).val [0, 0, i, j])
        ∧ sumRange 2 (fun i => sumRange 2 (fun j =>
            (YNetTorch_softmax e5test x5test).val [0, 0, i, j])) = 1
        ∧ (∀ x' : Tensor, x'.dims = x5test.dims →
            (∀ i j, i < 2 → j < 2 → x'.val [0, 0, i, j] = x5test.val [0, 0, i, j]) →
            ∀ i j, i < 2 → j < 2 →
              (YNetTorch_softmax e5test x').val [0, 0, i, j]
                = (YNetTorch_softmax e5test x5test).val [0, 0, i, j])) :=
  ⟨by decide,
   C5_spatial_softmax e5test x5test 1 1 2 2 0 0 rfl (fun q => one_pos)
     (by decide) (by decide) (by decide)⟩

/-- C10 counterexample: on a single-channel (channel = 1) normalized input
of batch 2, the soft-argmax reducer returns a tensor of shape
batch × 1 × 2 — still three-dimensional — and not the claimed 2D
batch × 2 tensor; the channel dimension is never squeezed. -/
theorem C10_counterexample :
    (softargmax_on_softmax_map x10test).dims = [2, 1, 2]
      ∧ (softargmax_on_softmax_map x10test).dims ≠ [2, 2] := by decide

/-- C10 (amended): for every batch × channel × H × W input, the soft-argmax
reducer returns a tensor of shape batch × channel × 2 — including in the
single-channel case, where the shape is batch × 1 × 2 rather than
batch × 2. -/
theorem C10_softargmax_shape (x : Tensor) (Nb Ch H W : ℕ)
    (hd : x.dims = [Nb, Ch, H, W]) :
    (softargmax_on_softmax_map x).dims = [Nb, Ch, 2] :=
  softargmax_dims x Nb Ch H W hd

/-- Witness for C10 (amended) on the 2×1×3×3 input. -/
theorem C10_softargmax_shape_witness :
    x10test.dims = [2, 1, 3, 3]
      ∧ (softargmax_on_softmax_map x10test).dims = [2, 1, 2] :=
  ⟨rfl, C10_softargmax_shape x10test 2 1 3 3 rfl⟩
